import Mathlib

/-!
Verification of the InSilicoSeq read-simulation core.

The definitions below are a shallow embedding of `iss/util.py` and
`iss/generator.py`.  Python's `random.randrange(lo, hi)` is embedded as a
function of an extra draw parameter `u : Nat`: the call returns
`lo + u % (hi - lo)` when the range is non-empty (as `u` ranges over `Nat`
this covers exactly the values the Python call can return) and `none`
(modelling the raised `ValueError`) when the range is empty.  File-system
state is a list of file names; machine integers are `Nat` (all quantities
involved are non-negative, and Python's `range`/`randrange` emptiness
conditions coincide with truncated `Nat` subtraction producing `0`).
-/

/-! Model of `iss/util.py`, `rev_comp`: the substitution table is the `bases`
dict, embedded as an association list; a missing key is a `KeyError`, i.e.
`none`. -/

def bases : List (Char × Char) :=
  [('a', 't'), ('c', 'g'), ('g', 'c'), ('t', 'a'), ('y', 'r'), ('r', 'y'),
   ('w', 'w'), ('s', 's'), ('k', 'm'), ('m', 'k'), ('n', 'n'), ('A', 'T'),
   ('C', 'G'), ('G', 'C'), ('T', 'A'), ('Y', 'R'), ('R', 'Y'), ('W', 'W'),
   ('S', 'S'), ('K', 'M'), ('M', 'K'), ('N', 'N')]

def compBase (c : Char) : Option Char :=
  match bases.find? (fun p => p.1 == c) with
  | some p => some p.2
  | none => none

/-- The list comprehension `[bases[b] for b in sequence]`: fails at the first
character that is not a key of the table. -/
def mapComp : List Char → Option (List Char)
  | [] => some []
  | c :: cs =>
    match compBase c with
    | none => none
    | some c' =>
      match mapComp cs with
      | none => none
      | some cs' => some (c' :: cs')

/-- `rev_comp` from `iss/util.py`: complement every character through the
table, then reverse (`complement[::-1]`). -/
def rev_comp (s : List Char) : Option (List Char) :=
  (mapComp s).map List.reverse

/-! Model of `iss/util.py`, `split_list`: the Python slice `l[a:b]` is
`(l.drop a).take (b - a)`. -/

def split_list {α : Type} (l : List α) (n_parts : Nat) : List (List α) :=
  (List.range n_parts).map (fun i =>
    (l.drop (i * l.length / n_parts)).take
      ((i + 1) * l.length / n_parts - i * l.length / n_parts))

/-! Model of `iss/util.py`, `reservoir`: `random.sample(range(0, total - 1), n)`
followed by `sorted` can return exactly the strictly increasing lists of `n`
naturals below `total - 1`; the generator walk then yields the records at
those indices, in order. -/

/-- Strictly ascending list of naturals (the result of `sorted` on a set of
distinct sampled indices). -/
def strictAsc : List Nat → Bool
  | [] => true
  | [_] => true
  | a :: b :: rest => a < b && strictAsc (b :: rest)

def isSampleOf (total n : Nat) (s : List Nat) : Prop :=
  s.length = n ∧ strictAsc s = true ∧ ∀ i ∈ s, i < total - 1

instance (total n : Nat) (s : List Nat) : Decidable (isSampleOf total n s) :=
  inferInstanceAs (Decidable
    (s.length = n ∧ strictAsc s = true ∧ ∀ i ∈ s, i < total - 1))

inductive ResResult (α : Type) where
  | fatal : ResResult α
  | ok : List α → ResResult α
deriving DecidableEq

/-- `reservoir` from `iss/util.py`.  With `n = some m` it asserts
`m < total` (else `sys.exit(1)`, modelled as `.fatal`) and yields the records
at the sampled indices `s`; with `n = none` it yields every record. -/
def reservoir {α : Type} (records : List α) (n : Option Nat) (s : List Nat) :
    ResResult α :=
  match n with
  | none => .ok records
  | some m =>
    if m < records.length then
      .ok (s.filterMap (fun i => records[i]?))
    else .fatal

/-! Model of `iss/generator.py`: position sampling in `simulate_read`. -/

/-- `random.randrange(lo, hi)`: `none` models the `ValueError` on an empty
range. -/
def randrange (lo hi u : Nat) : Option Nat :=
  if lo < hi then some (lo + u % (hi - lo)) else none

inductive FwdResult where
  | fatal : FwdResult
  | crash : FwdResult
  | ok : Nat → Bool → FwdResult
deriving DecidableEq

/-- The forward-start block of `simulate_read` (`try`/`except` at lines
93-108): the `assert read_length < len(record.seq)` failing is `sys.exit(1)`
(`.fatal`); a `ValueError` from the first `randrange` falls back to
`max(0, randrange(0, L - R))`; a `ValueError` escaping the fallback is an
uncaught exception (`.crash`).  The `Bool` records whether the fallback path
was taken. -/
def forward_start_sample (L R I u : Nat) : FwdResult :=
  if R < L then
    match randrange 0 (L - (2 * R + I)) u with
    | some v => .ok v false
    | none =>
      match randrange 0 (L - R) u with
      | some v => .ok (max 0 v) true
      | none => .crash
  else .fatal

inductive SimCoords where
  | fatal : SimCoords
  | crash : SimCoords
  | ok : Nat → Nat → Nat → Nat → SimCoords
deriving DecidableEq

/-- The fragment coordinates produced by `simulate_read` for a reference of
length `L`, read length `R` and insert size `I`, with `u1` the forward draw
and `u2` the reverse fallback draw: forward fragment
`[forward_start, forward_start + R)`; reverse fragment nominally
`[forward_end + I, forward_end + I + R)`, redrawn via
`randrange(R, L)` when `assert reverse_end < L` fails. -/
def simulate_read_coords (L R I u1 u2 : Nat) : SimCoords :=
  match forward_start_sample L R I u1 with
  | .fatal => .fatal
  | .crash => .crash
  | .ok fs _ =>
    let fe := fs + R
    let rs := fe + I
    let re := rs + R
    if re < L then .ok fs fe rs re
    else
      match randrange R L u2 with
      | some re2 => .ok fs fe (re2 - R) re2
      | none => .crash

/-! Model of `iss/generator.py`, `reads` (lines 46-69): the GC-bias filter and
the returned temporary file name.  Read pairs are given as the already
synthesised forward/reverse sequences; `draws` supplies one `np.random.rand()`
value per pair. -/

def gcCount (s : List Char) : Nat :=
  s.countP (fun c => c ∈ ['G', 'C', 'g', 'c', 'S', 's'])

/-- `Bio.SeqUtils.GC`: percentage of G/C/S characters (either case). -/
def gcContent (s : List Char) : ℚ :=
  100 * gcCount s / s.length

/-- One iteration of the filter at lines 54-64: accept when GC-bias is off;
with GC-bias on, accept unconditionally when `40 < GC < 60`, otherwise accept
exactly when the uniform draw `u` is below `0.90`. -/
def acceptPair (gc_bias : Bool) (f r : List Char) (u : ℚ) : Bool :=
  if gc_bias then
    let gc := gcContent (f ++ r)
    if 40 < gc ∧ gc < 60 then true
    else decide (u < 9 / 10)
  else true

def tempFileName (output rid : String) (cpu : Nat) : String :=
  output ++ ".iss.tmp." ++ rid ++ "." ++ toString cpu

/-- `reads` from `iss/generator.py`: filters the simulated pairs through the
GC-bias policy, writes them (writing is not modelled here) and returns the
temporary file name.  The `Option` return type records that the caller
(`concatenate`/`cleanup`) accepts `None` entries. -/
def reads (gc_bias : Bool) (pairs : List (List Char × List Char))
    (draws : List ℚ) (output rid : String) (cpu : Nat) :
    List (List Char × List Char) × Option String :=
  (((pairs.zip draws).filter
      (fun pd => acceptPair gc_bias pd.1.1 pd.1.2 pd.2)).map Prod.fst,
   some (tempFileName output rid cpu))

/-! Model of `iss/generator.py`, `cleanup`: the file system is a list of file
names, `os.remove` fails (`OSError`) when the file is absent, and a failure
exits with status 1 (`.error`), carrying the file-system state at exit. -/

def osRemove (st : List String) (f : String) : Option (List String) :=
  if f ∈ st then some (st.erase f) else none

def cleanup : List (Option String) → List String →
    Except (List String) (List String)
  | [], st => .ok st
  | none :: rest, st => cleanup rest st
  | some p :: rest, st =>
    match osRemove st (p ++ "_R1.fastq") with
    | none => .error st
    | some st1 =>
      match osRemove st1 (p ++ "_R2.fastq") with
      | none => .error st1
      | some st2 => cleanup rest st2

/-! Helper lemmas about the substitution table and `mapComp`. -/

theorem bases_symm_all : ∀ p ∈ bases, compBase p.2 = some p.1 := by decide

theorem compBase_mem {c c' : Char} (h : compBase c = some c') : (c, c') ∈ bases := by
  unfold compBase at h
  cases hf : bases.find? (fun p => p.1 == c) with
  | none => rw [hf] at h; cases h
  | some q =>
    obtain ⟨a, b⟩ := q
    rw [hf] at h
    dsimp only at h
    cases h
    have h1 : a = c := by simpa using List.find?_some hf
    have h2 := List.mem_of_find?_eq_some hf
    subst h1
    exact h2

theorem compBase_symm {c c' : Char} (h : compBase c = some c') :
    compBase c' = some c :=
  bases_symm_all (c, c') (compBase_mem h)

theorem compBase_isSome_iff (c : Char) :
    (compBase c).isSome = true ↔ c ∈ bases.map Prod.fst := by
  unfold compBase
  cases hf : bases.find? (fun p => p.1 == c) with
  | none =>
    constructor
    · intro h
      exact absurd h (by decide)
    · intro hmem
      obtain ⟨p, hp, hpc⟩ := List.mem_map.mp hmem
      have hsome : (bases.find? (fun p => p.1 == c)).isSome = true :=
        List.find?_isSome.mpr ⟨p, hp, by simp [hpc]⟩
      rw [hf] at hsome
      cases hsome
  | some p =>
    simp only [Option.isSome_some, true_iff]
    have h1 := List.find?_some hf
    have h2 := List.mem_of_find?_eq_some hf
    exact List.mem_map.mpr ⟨p, h2, by simpa using h1⟩

theorem mapComp_cons_inv {c : Char} {cs t : List Char}
    (h : mapComp (c :: cs) = some t) :
    ∃ c' t', compBase c = some c' ∧ mapComp cs = some t' ∧ t = c' :: t' := by
  cases hc : compBase c with
  | none => simp [mapComp, hc] at h
  | some c' =>
    cases hm : mapComp cs with
    | none => simp [mapComp, hc, hm] at h
    | some cs' =>
      simp only [mapComp, hc, hm, Option.some.injEq] at h
      exact ⟨c', cs', rfl, rfl, h.symm⟩

theorem mapComp_symm {s t : List Char} (h : mapComp s = some t) :
    mapComp t = some s := by
  induction s generalizing t with
  | nil =>
    simp only [mapComp, Option.some.injEq] at h
    subst h
    rfl
  | cons c cs ih =>
    obtain ⟨c', t', hc, hm, rfl⟩ := mapComp_cons_inv h
    have h1 := ih hm
    have h2 := compBase_symm hc
    simp [mapComp, h2, h1]

theorem mapComp_append {a b ra rb : List Char}
    (ha : mapComp a = some ra) (hb : mapComp b = some rb) :
    mapComp (a ++ b) = some (ra ++ rb) := by
  induction a generalizing ra with
  | nil =>
    simp only [mapComp, Option.some.injEq] at ha
    subst ha
    simpa using hb
  | cons c cs ih =>
    obtain ⟨c', t', hc, hm, rfl⟩ := mapComp_cons_inv ha
    have h1 := ih hm
    simp [mapComp, hc, h1]

theorem mapComp_reverse {s t : List Char} (h : mapComp s = some t) :
    mapComp s.reverse = some t.reverse := by
  induction s generalizing t with
  | nil =>
    simp only [mapComp, Option.some.injEq] at h
    subst h
    rfl
  | cons c cs ih =>
    obtain ⟨c', t', hc, hm, rfl⟩ := mapComp_cons_inv h
    have h1 := ih hm
    have h2 : mapComp [c] = some [c'] := by simp [mapComp, hc]
    have h3 := mapComp_append h1 h2
    simpa using h3

theorem mapComp_none_of_mem {s : List Char} {c : Char} (hmem : c ∈ s)
    (hc : compBase c = none) : mapComp s = none := by
  induction s with
  | nil => cases hmem
  | cons d ds ih =>
    rcases List.mem_cons.mp hmem with rfl | hmem'
    · simp [mapComp, hc]
    · cases hd : compBase d with
      | none => simp [mapComp, hd]
      | some d' => simp [mapComp, hd, ih hmem']

/-! Helper lemmas about the position sampler. -/

theorem forward_ok_primary (L R I u : Nat) (h : 2 * R + I < L) :
    forward_start_sample L R I u = .ok (u % (L - (2 * R + I))) false := by
  unfold forward_start_sample randrange
  rw [if_pos (show R < L by omega), if_pos (show 0 < L - (2 * R + I) by omega)]
  simp

theorem forward_ok_fallback (L R I u : Nat) (h1 : R < L) (h2 : L ≤ 2 * R + I) :
    forward_start_sample L R I u = .ok (u % (L - R)) true := by
  unfold forward_start_sample randrange
  rw [if_pos h1, if_neg (show ¬ 0 < L - (2 * R + I) by omega),
    if_pos (show 0 < L - R by omega)]
  simp

/-! Helper lemma for string file names. -/

theorem string_append_left_cancel {a b c : String} (h : a ++ b = a ++ c) :
    b = c := by
  have h2 : (a ++ b).data = (a ++ c).data := congrArg String.data h
  rw [String.data_append, String.data_append] at h2
  exact String.ext (List.append_cancel_left h2)

theorem r1_ne_r2 (p : String) : p ++ "_R1.fastq" ≠ p ++ "_R2.fastq" := by
  intro h
  exact absurd (string_append_left_cancel h) (by decide)

/-! Helper lemma for `split_list`. -/

theorem split_list_join_aux {α : Type} (l : List α) (n k : Nat) :
    ((List.range k).map (fun i =>
      (l.drop (i * l.length / n)).take
        ((i + 1) * l.length / n - i * l.length / n))).flatten
      = l.take (k * l.length / n) := by
  induction k with
  | zero => simp
  | succ k ih =>
    rw [List.range_succ, List.map_append, List.flatten_append, ih]
    simp only [List.map_cons, List.map_nil, List.flatten_cons, List.flatten_nil,
      List.append_nil]
    rw [← List.take_add]
    congr 1
    have h : k * l.length / n ≤ (k + 1) * l.length / n :=
      Nat.div_le_div_right (Nat.mul_le_mul_right l.length (Nat.le_succ k))
    omega

/-- Claim C1 (counterexample to the claim as stated): with reference length
`L = 1`, read length `R = 0` (which satisfies `R < L`) and insert size `0`,
`simulate_read` produces the coordinates `(0, 0, 0, 0)`, so
`forward_start < forward_end` fails: the claimed strict bounds do not hold for
read length `0`. -/
theorem simulate_read_coords_cex :
    simulate_read_coords 1 0 0 0 0 = .ok 0 0 0 0 ∧
    ¬ (∀ fs fe rs re, simulate_read_coords 1 0 0 0 0 = .ok fs fe rs re →
        fs < fe) := by
  refine ⟨by decide, fun h => ?_⟩
  exact absurd (h 0 0 0 0 (by decide)) (by decide)

/-- Claim C1 (amended: additionally require `1 ≤ R`): for every reference
length `L`, read length `R` with `1 ≤ R < L`, every non-negative insert size
`I` and all random draws, `simulate_read` succeeds and its fragment
coordinates satisfy `0 ≤ forward_start < forward_end ≤ L` and
`0 ≤ reverse_start < reverse_end ≤ L` (the lower bounds are inherent in
`Nat`), on every branch. -/
theorem simulate_read_coords_bounds (L R I u1 u2 : Nat) (hR : 1 ≤ R)
    (hL : R < L) :
    ∃ fs fe rs re, simulate_read_coords L R I u1 u2 = .ok fs fe rs re ∧
      fs < fe ∧ fe ≤ L ∧ rs < re ∧ re ≤ L := by
  have hfs : ∃ fs b, forward_start_sample L R I u1 = .ok fs b ∧ fs + R < L := by
    by_cases h2 : 2 * R + I < L
    · refine ⟨_, _, forward_ok_primary L R I u1 h2, ?_⟩
      have := Nat.mod_lt u1 (show 0 < L - (2 * R + I) by omega)
      omega
    · refine ⟨_, _, forward_ok_fallback L R I u1 hL (by omega), ?_⟩
      have := Nat.mod_lt u1 (show 0 < L - R by omega)
      omega
  obtain ⟨fs, b, hok, hlt⟩ := hfs
  unfold simulate_read_coords
  rw [hok]
  dsimp only
  by_cases hrev : fs + R + I + R < L
  · rw [if_pos hrev]
    exact ⟨fs, fs + R, fs + R + I, fs + R + I + R, rfl, by omega, by omega,
      by omega, by omega⟩
  · rw [if_neg hrev]
    unfold randrange
    rw [if_pos hL]
    have := Nat.mod_lt u2 (show 0 < L - R by omega)
    exact ⟨fs, fs + R, R + u2 % (L - R) - R, R + u2 % (L - R), rfl, by omega,
      by omega, by omega, by omega⟩

/-- Witness for `simulate_read_coords_bounds` at `L = 10`, `R = 2`, `I = 1`. -/
theorem simulate_read_coords_bounds_witness :
    1 ≤ 2 ∧ 2 < 10 ∧
    (∃ fs fe rs re, simulate_read_coords 10 2 1 3 4 = .ok fs fe rs re ∧
      fs < fe ∧ fe ≤ 10 ∧ rs < re ∧ re ≤ 10) :=
  ⟨by decide, by decide,
   simulate_read_coords_bounds 10 2 1 3 4 (by decide) (by decide)⟩

/-- Claim C8: under `R < L` the forward-start sampler never lets an exception
escape: when `L > 2R + I` it returns the primary uniform draw over
`[0, L - (2R + I))`; when that range is empty it falls back to a uniform draw
over `[0, L - R)` (which cannot itself fail, since `R < L`), and in no case
does it crash. -/
theorem forward_start_never_raises (L R I u : Nat) (h : R < L) :
    (2 * R + I < L →
      forward_start_sample L R I u = .ok (u % (L - (2 * R + I))) false)
    ∧ (L ≤ 2 * R + I →
      forward_start_sample L R I u = .ok (u % (L - R)) true)
    ∧ forward_start_sample L R I u ≠ .crash := by
  refine ⟨fun h2 => forward_ok_primary L R I u h2,
    fun h2 => forward_ok_fallback L R I u h h2, ?_⟩
  by_cases h2 : 2 * R + I < L
  · rw [forward_ok_primary L R I u h2]
    simp
  · rw [forward_ok_fallback L R I u h (by omega)]
    simp

/-- Witness for `forward_start_never_raises` at `L = 10`, `R = 3`, `I = 1`,
`u = 7`. -/
theorem forward_start_never_raises_witness :
    (3 : Nat) < 10 ∧
    ((2 * 3 + 1 < 10 →
      forward_start_sample 10 3 1 7 = .ok (7 % (10 - (2 * 3 + 1))) false)
    ∧ (10 ≤ 2 * 3 + 1 →
      forward_start_sample 10 3 1 7 = .ok (7 % (10 - 3)) true)
    ∧ forward_start_sample 10 3 1 7 ≠ .crash) :=
  ⟨by decide, forward_start_never_raises 10 3 1 7 (by decide)⟩

/-- Claim C9: whenever `simulate_read` returns coordinates, the reverse
fragment is the nominal `[forward_end + I, forward_end + I + R)` exactly when
that nominal end is `< L`; otherwise `reverse_end` is redrawn uniformly from
`[R, L)` (value `R + u2 % (L - R)`, independent of the forward fragment) and
`reverse_start = reverse_end - R`. -/
theorem simulate_read_reverse_fallback (L R I u1 u2 fs fe rs re : Nat)
    (h : simulate_read_coords L R I u1 u2 = .ok fs fe rs re) :
    (fe + I + R < L → rs = fe + I ∧ re = fe + I + R)
    ∧ (L ≤ fe + I + R → re = R + u2 % (L - R) ∧ rs = re - R) := by
  unfold simulate_read_coords at h
  cases hf : forward_start_sample L R I u1 with
  | fatal => rw [hf] at h; cases h
  | crash => rw [hf] at h; cases h
  | ok fs0 b =>
    rw [hf] at h
    dsimp only at h
    by_cases hrev : fs0 + R + I + R < L
    · rw [if_pos hrev] at h
      cases h
      constructor
      · intro hc
        exact ⟨rfl, rfl⟩
      · intro hc
        omega
    · rw [if_neg hrev] at h
      unfold randrange at h
      by_cases hRL : R < L
      · rw [if_pos hRL] at h
        dsimp only at h
        cases h
        constructor
        · intro hc
          omega
        · intro hc
          exact ⟨rfl, rfl⟩
      · rw [if_neg hRL] at h
        cases h

/-- Witness for `simulate_read_reverse_fallback` at `L = 5`, `R = 2`,
`I = 10`, where the fallback fires. -/
theorem simulate_read_reverse_fallback_witness :
    ((2 : Nat) + 10 + 2 < 5 → (0 : Nat) = 2 + 10 ∧ (2 : Nat) = 2 + 10 + 2)
    ∧ ((5 : Nat) ≤ 2 + 10 + 2 →
      (2 : Nat) = 2 + 3 % (5 - 2) ∧ (0 : Nat) = 2 - 2) :=
  simulate_read_reverse_fallback 5 2 10 0 3 0 2 0 2 (by decide)

/-- Claim C10: for every list `l` and `n_parts ≥ 1`, `split_list` returns
exactly `n_parts` slices whose in-order concatenation is `l`: no element of
the partition is lost, duplicated or reordered. -/
theorem split_list_partition {α : Type} (l : List α) (n_parts : Nat)
    (h : 1 ≤ n_parts) :
    (split_list l n_parts).length = n_parts ∧
    (split_list l n_parts).flatten = l := by
  constructor
  · simp [split_list]
  · unfold split_list
    rw [split_list_join_aux, Nat.mul_div_cancel_left l.length h]
    exact List.take_length l

/-- Witness for `split_list_partition`: splitting `[1, 2, 3]` in two parts
gives `[[1], [2, 3]]`. -/
theorem split_list_partition_witness :
    1 ≤ 2 ∧ ((split_list [1, 2, 3] 2).length = 2 ∧
      (split_list [1, 2, 3] 2).flatten = [1, 2, 3]) :=
  ⟨by decide, split_list_partition [1, 2, 3] 2 (by decide)⟩

/-- Claim C3 (code evaluated at the failing input): `reservoir` samples its
indices from `range(0, total - 1)`, which excludes the last record.  With two
records and `n = 1`, every possible draw of `random.sample` yields the first
record, so the last record can never be selected and the sample is not
uniform over all records. -/
theorem reservoir_never_yields_last (s : List Nat) (h : isSampleOf 2 1 s) :
    reservoir ["r0", "r1"] (some 1) s = .ok ["r0"] := by
  obtain ⟨hlen, _, hlt⟩ := h
  obtain ⟨i, rfl⟩ := List.length_eq_one.mp hlen
  have hi : i < 1 := hlt i (by simp)
  have hz : i = 0 := by omega
  subst hz
  rfl

/-- Witness for `reservoir_never_yields_last` at the only possible sample
`[0]`. -/
theorem reservoir_never_yields_last_witness :
    isSampleOf 2 1 [0] ∧ reservoir ["r0", "r1"] (some 1) [0] = .ok ["r0"] :=
  ⟨by decide, reservoir_never_yields_last [0] (by decide)⟩

/-- Claim C4 (counterexample to the claim as stated): a call of `reads` that
produces zero read pairs (here: `n_pairs = 0`) still returns the temporary
file name, not an absent value — the early-return-`None` path in the source
is commented out. -/
theorem reads_zero_pairs_cex :
    (reads false [] [] "out" "chr1" 0).1 = [] ∧
    (reads false [] [] "out" "chr1" 0).2 ≠ none := by
  constructor
  · rfl
  · simp [reads]

/-- Claim C4 (amended): `reads` always returns the worker's temporary file
path, even when zero pairs were produced; it never returns an absent value. -/
theorem reads_always_returns_path (gc_bias : Bool)
    (pairs : List (List Char × List Char)) (draws : List ℚ)
    (output rid : String) (cpu : Nat) :
    (reads gc_bias pairs draws output rid cpu).2 =
      some (tempFileName output rid cpu) := rfl

/-- Claim C7: a pair is accepted iff GC-bias filtering is disabled, or the GC
percentage of the concatenated forward+reverse sequence lies strictly between
40 and 60, or the independent uniform draw is below 0.90. -/
theorem gc_filter_policy (gc_bias : Bool) (f r : List Char) (u : ℚ) :
    acceptPair gc_bias f r u = true ↔
      (gc_bias = false
        ∨ (40 < gcContent (f ++ r) ∧ gcContent (f ++ r) < 60)
        ∨ u < 9 / 10) := by
  cases gc_bias with
  | false => simp [acceptPair]
  | true =>
    unfold acceptPair
    by_cases hgc : 40 < gcContent (f ++ r) ∧ gcContent (f ++ r) < 60
    · simp [hgc]
    · simp [hgc]

/-- Claim C5 (counterexample to the claim as stated): `'B'` is an IUPAC
ambiguity code (not A), but it is not a key of the substitution table, so
`rev_comp` on a sequence containing it fails instead of producing output:
the table does not cover all IUPAC ambiguity codes. -/
theorem rev_comp_iupac_cex : compBase 'B' = none ∧ rev_comp ['B'] = none := by
  exact ⟨rfl, rfl⟩

/-- Claim C5 (amended): the substitution table is symmetric; its key set is
exactly the unambiguous bases and the IUPAC codes Y, R, W, S, K, M, N in both
cases — the codes B, D, H, V are not covered; `rev_comp` maps every character
through the table and reverses the result, and any input containing a symbol
outside the table fails fatally. -/
theorem rev_comp_table_spec :
    (∀ c c', compBase c = some c' → compBase c' = some c)
    ∧ (∀ c, (compBase c).isSome = true ↔ c ∈ bases.map Prod.fst)
    ∧ ('B' ∉ bases.map Prod.fst ∧ 'b' ∉ bases.map Prod.fst
       ∧ 'D' ∉ bases.map Prod.fst ∧ 'd' ∉ bases.map Prod.fst
       ∧ 'H' ∉ bases.map Prod.fst ∧ 'h' ∉ bases.map Prod.fst
       ∧ 'V' ∉ bases.map Prod.fst ∧ 'v' ∉ bases.map Prod.fst)
    ∧ (∀ s t, mapComp s = some t → rev_comp s = some t.reverse)
    ∧ (∀ s c, c ∈ s → compBase c = none → rev_comp s = none) := by
  refine ⟨fun c c' h => compBase_symm h, compBase_isSome_iff, by decide,
    ?_, ?_⟩
  · intro s t h
    unfold rev_comp
    rw [h]
    rfl
  · intro s c hmem hc
    unfold rev_comp
    rw [mapComp_none_of_mem hmem hc]
    rfl

/-- Witness for `rev_comp_table_spec`: symmetry applied at `A`/`T`, and the
fatal failure on the unsupported symbol `X`. -/
theorem rev_comp_table_spec_witness :
    compBase 'T' = some 'A' ∧ rev_comp ['a', 'X'] = none :=
  ⟨rev_comp_table_spec.1 'A' 'T' (by decide),
   rev_comp_table_spec.2.2.2.2 ['a', 'X'] 'X' (by decide) (by decide)⟩

/-- Claim C6: `rev_comp` is involutive on its domain: whenever it succeeds on
`s` with result `t`, it succeeds on `t` with result `s`. -/
theorem rev_comp_involutive (s t : List Char) (h : rev_comp s = some t) :
    rev_comp t = some s := by
  unfold rev_comp at h ⊢
  obtain ⟨u, hu, rfl⟩ := Option.map_eq_some'.mp h
  have h1 := mapComp_symm hu
  have h2 := mapComp_reverse h1
  rw [h2]
  simp

/-- Witness for `rev_comp_involutive`: `rev_comp "ACGT" = "ACGT"`, so applying
it twice returns `"ACGT"`. -/
theorem rev_comp_involutive_witness :
    rev_comp ['A', 'C', 'G', 'T'] = some ['A', 'C', 'G', 'T'] :=
  rev_comp_involutive ['A', 'C', 'G', 'T'] ['A', 'C', 'G', 'T'] (by decide)

/-- Claim C2 (counterexample to the claim as stated): with only the `_R1`
file present, `cleanup` does exit fatally, but the `_R1` file has already
been removed when the `_R2` removal fails — it is not left undeleted. -/
theorem cleanup_missing_r2_cex :
    cleanup [some "t"] ["t_R1.fastq"] = .error [] ∧
    "t_R1.fastq" ∉ ([] : List String) := by
  exact ⟨rfl, by simp⟩

/-- Claim C2 (amended): for a temp prefix whose `_R1.fastq` exists but whose
`_R2.fastq` is missing, `cleanup` signals a fatal condition, with the
`_R1.fastq` file already deleted (removals happen in order `_R1` then `_R2`);
for a prefix with both files present, `cleanup` removes both files. -/
theorem cleanup_spec (p : String) (st : List String) (hnd : st.Nodup) :
    ((p ++ "_R1.fastq") ∈ st → (p ++ "_R2.fastq") ∉ st →
      cleanup [some p] st = .error (st.erase (p ++ "_R1.fastq")) ∧
      (p ++ "_R1.fastq") ∉ st.erase (p ++ "_R1.fastq"))
    ∧ ((p ++ "_R1.fastq") ∈ st → (p ++ "_R2.fastq") ∈ st →
      cleanup [some p] st =
        .ok ((st.erase (p ++ "_R1.fastq")).erase (p ++ "_R2.fastq")) ∧
      (p ++ "_R1.fastq") ∉ (st.erase (p ++ "_R1.fastq")).erase
        (p ++ "_R2.fastq") ∧
      (p ++ "_R2.fastq") ∉ (st.erase (p ++ "_R1.fastq")).erase
        (p ++ "_R2.fastq")) := by
  constructor
  · intro h1 h2
    constructor
    · unfold cleanup osRemove
      rw [if_pos h1]
      dsimp only
      rw [if_neg (fun hc => h2 (List.mem_of_mem_erase hc))]
    · intro hc
      exact (hnd.mem_erase_iff.mp hc).1 rfl
  · intro h1 h2
    have h2' : (p ++ "_R2.fastq") ∈ st.erase (p ++ "_R1.fastq") :=
      (List.mem_erase_of_ne (Ne.symm (r1_ne_r2 p))).mpr h2
    refine ⟨?_, ?_, ?_⟩
    · unfold cleanup osRemove
      rw [if_pos h1]
      dsimp only
      rw [if_pos h2']
      rfl
    · intro hc
      exact (hnd.mem_erase_iff.mp (List.mem_of_mem_erase hc)).1 rfl
    · intro hc
      exact (((hnd.erase _).mem_erase_iff).mp hc).1 rfl

/-- Witness for `cleanup_spec` on the fatal scenario: prefix `"t"`, file
system containing only `t_R1.fastq`. -/
theorem cleanup_spec_witness :
    (["t_R1.fastq"] : List String).Nodup ∧
    (cleanup [some "t"] ["t_R1.fastq"] =
      .error ((["t_R1.fastq"] : List String).erase ("t" ++ "_R1.fastq")) ∧
    ("t" ++ "_R1.fastq") ∉
      (["t_R1.fastq"] : List String).erase ("t" ++ "_R1.fastq")) :=
  ⟨by decide,
   (cleanup_spec "t" ["t_R1.fastq"] (by decide)).1 (by decide) (by decide)⟩
